import Mathlib

/-!
Shallow embedding of the `simple-base64` Rust crate (src/constants.rs,
src/errors.rs, src/lib.rs).

Conventions of the embedding:
* a Rust `&[u8]` / `Vec<u8>` is a `List Nat` whose entries are the byte
  values; operations that in Rust are forced into `u8` carry an explicit
  `% 256` at the point where the `u8` typing matters;
* Rust panics (slice indexing out of bounds, `clone_from_slice` length
  mismatch, `usize` subtraction overflow, failed `assert_eq!`) are
  modelled as `Option.none`; a function that cannot panic still returns
  `some` so that call sites compose in the `Option` monad;
* the two `f32` buffer-size formulas are modelled with exact rational
  arithmetic (`ℚ` with `Int.ceil` / `Int.floor`), which agrees with the
  `f32` computation for every input length small enough for `f32` to be
  exact;
* a Rust `String` is represented by the list of bytes of its UTF-8
  encoding.
-/

deriving instance DecidableEq for Except

/-- errors.rs: `pub struct PaddingError;` -/
structure PaddingError where
deriving DecidableEq

/-- Modelled from the spec: the text wrapper "carries the underlying
UTF-8 validation failure detail"; `std::str::Utf8Error` is modelled by
its `valid_up_to` index. -/
structure Utf8Error where
  valid_up_to : Nat
deriving DecidableEq

/-- errors.rs: `pub struct Base64Error { pub msg: String, pub utf8_error: Option<Utf8Error> }` -/
structure Base64Error where
  msg : String
  utf8_error : Option Utf8Error
deriving DecidableEq

/-- constants.rs: the bytes of
`"ABCDEFGHIJKLMNOPQRSTUVWXYZabcdefghijklmnopqrstuvwxyz0123456789+/"`. -/
def BASE_64_ENCODING_CHARS : List Nat :=
  [65, 66, 67, 68, 69, 70, 71, 72, 73, 74, 75, 76, 77, 78, 79, 80, 81, 82,
   83, 84, 85, 86, 87, 88, 89, 90,
   97, 98, 99, 100, 101, 102, 103, 104, 105, 106, 107, 108, 109, 110, 111,
   112, 113, 114, 115, 116, 117, 118, 119, 120, 121, 122,
   48, 49, 50, 51, 52, 53, 54, 55, 56, 57, 43, 47]

/-- constants.rs: the bytes of
`"ABCDEFGHIJKLMNOPQRSTUVWXYZabcdefghijklmnopqrstuvwxyz0123456789-_"`. -/
def BASE_64_ENCODING_CHARS_URL : List Nat :=
  [65, 66, 67, 68, 69, 70, 71, 72, 73, 74, 75, 76, 77, 78, 79, 80, 81, 82,
   83, 84, 85, 86, 87, 88, 89, 90,
   97, 98, 99, 100, 101, 102, 103, 104, 105, 106, 107, 108, 109, 110, 111,
   112, 113, 114, 115, 116, 117, 118, 119, 120, 121, 122,
   48, 49, 50, 51, 52, 53, 54, 55, 56, 57, 45, 95]

/-- constants.rs: `pub const PADDING_CHAR: u8 = 61;` -/
def PADDING_CHAR : Nat := 61

/-- constants.rs: `compute_reverse_encoding`: a 127-entry table, `0`
everywhere except that each alphabet byte maps to its index and byte 61
maps to 61. -/
def compute_reverse_encoding (char_set : List Nat) : List Nat :=
  let encoding := List.replicate 127 0
  let encoding := char_set.enum.foldl (fun acc p => acc.set p.2 p.1) encoding
  encoding.set PADDING_CHAR PADDING_CHAR

/-- constants.rs: `CHARS_BASE_64_ENCODING`. -/
def CHARS_BASE_64_ENCODING : List Nat :=
  compute_reverse_encoding BASE_64_ENCODING_CHARS

/-- constants.rs: `CHARS_BASE_64_ENCODING_URL`. -/
def CHARS_BASE_64_ENCODING_URL : List Nat :=
  compute_reverse_encoding BASE_64_ENCODING_CHARS_URL

/-- Rust `res[s..s + src.len()].clone_from_slice(&src)`: overwrite the
slice of `res` starting at `s` with `src`, keeping everything else. -/
def writeAt (res : List Nat) (s : Nat) (src : List Nat) : List Nat :=
  res.take s ++ src ++ res.drop (s + src.length)

/-- `writeAt` guarded by the bounds check under which the Rust slice
assignment does not panic. -/
def storeSlice (res : List Nat) (s : Nat) (src : List Nat) : Option (List Nat) :=
  if s + src.length ≤ res.length then some (writeAt res s src) else none

/-- lib.rs `bytes_encode_trio`: split three bytes into four 6-bit
values (`usize` in the source). Arguments are `u8`, hence the `% 256`. -/
def bytes_encode_trio (bytes : List Nat) : Option (List Nat) :=
  match bytes with
  | i :: j :: k :: _ =>
    let i := i % 256
    let j := j % 256
    let k := k % 256
    let first := i >>> 2
    let second := (j >>> 4) ||| ((i &&& 3) <<< 4)
    let third := (k >>> 6) ||| ((j &&& 15) <<< 2)
    let fourth := k &&& 63
    some [first, second, third, fourth]
  | _ => none

/-- lib.rs `encode_trio`: `assert_eq!(bytes.len(), 3)`, then look each
6-bit value up in the forward table. -/
def encode_trio (bytes : List Nat) : Option (List Nat) :=
  if bytes.length = 3 then do
    let quartet ← bytes_encode_trio bytes
    match quartet with
    | [q0, q1, q2, q3] => do
      let c0 ← BASE_64_ENCODING_CHARS.get? q0
      let c1 ← BASE_64_ENCODING_CHARS.get? q1
      let c2 ← BASE_64_ENCODING_CHARS.get? q2
      let c3 ← BASE_64_ENCODING_CHARS.get? q3
      pure [c0, c1, c2, c3]
    | _ => none
  else none

/-- lib.rs `encode_duo`: `assert_eq!(bytes.len(), 2)`; complete the trio
with the filler byte 63, emit three characters and one padding byte. -/
def encode_duo (bytes : List Nat) : Option (List Nat) :=
  if bytes.length = 2 then
    match bytes with
    | [b0, b1] => do
      let quartet ← bytes_encode_trio [b0, b1, 63]
      match quartet with
      | [q0, q1, q2, _q3] => do
        let c0 ← BASE_64_ENCODING_CHARS.get? q0
        let c1 ← BASE_64_ENCODING_CHARS.get? q1
        let c2 ← BASE_64_ENCODING_CHARS.get? q2
        pure [c0, c1, c2, PADDING_CHAR]
      | _ => none
    | _ => none
  else none

/-- lib.rs `encode_uno`: `assert_eq!(bytes.len(), 1)`; complete the trio
with the filler bytes 15 and 255, emit two characters and two padding
bytes. -/
def encode_uno (bytes : List Nat) : Option (List Nat) :=
  if bytes.length = 1 then
    match bytes with
    | [b0] => do
      let quartet ← bytes_encode_trio [b0, 15, 255]
      match quartet with
      | [q0, q1, _q2, _q3] => do
        let c0 ← BASE_64_ENCODING_CHARS.get? q0
        let c1 ← BASE_64_ENCODING_CHARS.get? q1
        pure [c0, c1, PADDING_CHAR, PADDING_CHAR]
      | _ => none
    | _ => none
  else none

/-- lib.rs `encode_calc_byte_size`:
`((bytes.len() as f32 * 4. / 3.) / 4.).ceil() * 4.` cast to `usize`.
The `f32` computation is modelled with exact rational arithmetic, whose
value `⌈(n·4/3)/4⌉·4 = ⌈n/3⌉·4` is the natural number below;
`encode_calc_byte_size_spec` proves the two formulas equal. -/
def encode_calc_byte_size (bytes : List Nat) : Nat :=
  ((bytes.length + 2) / 3) * 4

/-- The loop `for i in 1..length { if i % 3 == 2 { ... } }` of
`base64_encode_bytes`, with explicit state `(res, position)`; `gas` is
the number of remaining iterations, `bytes.length - i` at every call, so
the loop exits exactly when `i` reaches `bytes.length`. -/
def encodeLoop (bytes : List Nat) : Nat → List Nat → Nat → Nat → Option (List Nat × Nat)
  | 0, res, position, _i => some (res, position)
  | gas + 1, res, position, i =>
    if i % 3 = 2 then do
      let trio := (bytes.drop (i - 2)).take 3
      let quartet ← encode_trio trio
      let res' ← storeSlice res position quartet
      encodeLoop bytes gas res' (position + 4) (i + 1)
    else encodeLoop bytes gas res position (i + 1)

/-- lib.rs `base64_encode_bytes`. -/
def base64_encode_bytes (bytes : List Nat) : Option (List Nat) :=
  let target_length := encode_calc_byte_size bytes
  let res : List Nat := List.replicate target_length 0
  let length := bytes.length
  match encodeLoop bytes (length - 1) res 0 1 with
  | none => none
  | some (res, _position) =>
    let remaining := length % 3
    if remaining > 0 then do
      let remaining_bytes := bytes.drop (length - remaining)
      let quartet ← if remaining = 2 then encode_duo remaining_bytes
                    else encode_uno remaining_bytes
      if quartet.length ≤ target_length then
        storeSlice res (target_length - quartet.length) quartet
      else none
    else some res

/-- lib.rs `decode_calc_byte_size`: position of the first `'='` byte
(or the full length), times 3/4, floored. The `f32` computation is
modelled with exact rational arithmetic, whose value
`⌊real·3/4⌋` is the natural number below; `decode_calc_byte_size_spec`
proves the two formulas equal. -/
def decode_calc_byte_size (bytes : List Nat) : Nat :=
  let real_length := bytes.findIdx (fun r => r == 61)
  (3 * real_length) / 4

/-- lib.rs `convert_encoded_bytes`: map every byte through the reverse
table; indexing past entry 126 panics. -/
def convert_encoded_bytes (bytes : List Nat) : Option (List Nat) :=
  bytes.mapM (fun x => CHARS_BASE_64_ENCODING.get? x)

/-- lib.rs `decode_quartet`: rebuild three bytes from four 6-bit values;
`u8` shifts discard bits above bit 7 (`% 256`). -/
def decode_quartet (bytes : List Nat) : Option (List Nat) :=
  match bytes with
  | i :: j :: k :: l :: _ =>
    let i := i % 256
    let j := j % 256
    let k := k % 256
    let l := l % 256
    let first := ((i <<< 2) % 256) ||| (j >>> 4)
    let second := ((j <<< 4) % 256) ||| ((k >>> 2) &&& 0xff)
    let third := (((k <<< 6) % 256) ||| l) &&& 0xff
    some [first, second, third]
  | _ => none

/-- lib.rs `decode_incomplete`: scan the (already reverse-mapped) final
chunk for the reverse image of `'='`, zero-fill from that position,
decode, and keep 3, 2 or 1 bytes, failing with `PaddingError` when the
scan hits position 0 or 1. -/
def decode_incomplete (bytes : List Nat) : Option (Except PaddingError (List Nat)) := do
  let pad_code ← CHARS_BASE_64_ENCODING.get? 61
  let pad_pos := bytes.findIdx (fun r => r == pad_code)
  let quartet ← storeSlice (List.replicate 4 0) 0 (bytes.take pad_pos)
  let temp ← decode_quartet quartet
  match temp with
  | [t0, t1, t2] =>
    match pad_pos with
    | 4 => pure (Except.ok [t0, t1, t2])
    | 3 => pure (Except.ok [t0, t1])
    | 2 => pure (Except.ok [t0])
    | _ => pure (Except.error {})
  | _ => none

/-- The loop `for i in 1..source_length - CHUNK { if i % 4 == 3 { ... } }`
of `base64_decode_bytes`, with explicit state `(res, position)`; `gas` is
the number of remaining iterations, `bytes.length - 4 - i` at every
call, so the loop exits exactly when `i` reaches `bytes.length - 4`. -/
def decodeLoop (bytes : List Nat) : Nat → List Nat → Nat → Nat → Option (List Nat × Nat)
  | 0, res, position, _i => some (res, position)
  | gas + 1, res, position, i =>
    if i % 4 = 3 then do
      let converted ← convert_encoded_bytes ((bytes.drop (i - 3)).take 4)
      let decoded ← decode_quartet converted
      let res' ← storeSlice res position decoded
      decodeLoop bytes gas res' (position + 3) (i + 1)
    else decodeLoop bytes gas res position (i + 1)

/-- lib.rs `base64_decode_bytes`. For an input shorter than 4 bytes the
`usize` range `1..source_length - CHUNK` underflows and the first chunk
read is out of bounds: panic (`none`). -/
def base64_decode_bytes (bytes : List Nat) : Option (Except PaddingError (List Nat)) :=
  let target_length := decode_calc_byte_size bytes
  let res : List Nat := List.replicate target_length 0
  let source_length := bytes.length
  if source_length < 4 then none
  else
    match decodeLoop bytes (source_length - 4 - 1) res 0 1 with
    | none => none
    | some (res, _position) => do
      let converted ← convert_encoded_bytes ((bytes.drop (source_length - 4)).take 4)
      match ← decode_incomplete converted with
      | Except.error e => pure (Except.error e)
      | Except.ok decoded =>
        if decoded.length ≤ target_length then do
          let res' ← storeSlice res (target_length - decoded.length) decoded
          pure (Except.ok res')
        else none

/-- Modelled from the spec: the text wrappers "validate that decoded
bytes form well-formed UTF-8 text" via `std::str::from_utf8`, which is
not part of this repository; this is RFC 3629 UTF-8 validation, the
error carrying the index of the first invalid sequence. -/
def utf8_cont_byte (c : Nat) : Bool := decide (0x80 ≤ c ∧ c ≤ 0xBF)

/-- Constraint on the second byte of a three-byte sequence (excludes
overlong encodings and surrogates). -/
def utf8_second_of_three (b c : Nat) : Bool :=
  if b = 0xE0 then decide (0xA0 ≤ c ∧ c ≤ 0xBF)
  else if b = 0xED then decide (0x80 ≤ c ∧ c ≤ 0x9F)
  else utf8_cont_byte c

/-- Constraint on the second byte of a four-byte sequence (excludes
overlong encodings and code points beyond U+10FFFF). -/
def utf8_second_of_four (b c : Nat) : Bool :=
  if b = 0xF0 then decide (0x90 ≤ c ∧ c ≤ 0xBF)
  else if b = 0xF4 then decide (0x80 ≤ c ∧ c ≤ 0x8F)
  else utf8_cont_byte c

/-- Width of a valid multi-byte sequence led by `b` (which is not an
ASCII byte) whose continuation bytes start `rest`, `none` if invalid. -/
def utf8_width_multi (b : Nat) (rest : List Nat) : Option Nat :=
  if b < 0xC2 then none
  else if b ≤ 0xDF then
    match rest with
    | c :: _ => if utf8_cont_byte c then some 2 else none
    | [] => none
  else if b ≤ 0xEF then
    match rest with
    | c :: d :: _ =>
      if utf8_second_of_three b c && utf8_cont_byte d then some 3 else none
    | _ => none
  else if b ≤ 0xF4 then
    match rest with
    | c :: d :: e :: _ =>
      if utf8_second_of_four b c && utf8_cont_byte d && utf8_cont_byte e then some 4
      else none
    | _ => none
  else none

/-- Width of the valid UTF-8 sequence starting with byte `b` followed by
`rest`, `none` if the sequence is invalid. -/
def utf8_width (b : Nat) (rest : List Nat) : Option Nat :=
  if b < 0x80 then some 1 else utf8_width_multi b rest

/-- Modelled from the spec: the text wrappers "validate that decoded
bytes form well-formed UTF-8 text" via `std::str::from_utf8`, which is
not part of this repository; this is RFC 3629 UTF-8 validation, the
error carrying the index of the first invalid sequence. `fuel` is only
a structural-recursion bound; it is always at least the list length. -/
def utf8_run : Nat → List Nat → Nat → Except Utf8Error Unit
  | _, [], _ => Except.ok ()
  | 0, _ :: _, i => Except.error ⟨i⟩
  | fuel + 1, b :: rest, i =>
    match utf8_width b rest with
    | some w => utf8_run fuel (rest.drop (w - 1)) (i + w)
    | none => Except.error ⟨i⟩

/-- Modelled from the spec: `str::from_utf8` on a byte buffer, keeping
only success or the `Utf8Error`. -/
def run_utf8_validation (v : List Nat) : Except Utf8Error Unit :=
  utf8_run v.length v 0

/-- lib.rs `base64_encode` (the `String` wrapper): encode the bytes,
then re-interpret the encoded bytes as UTF-8 text. -/
def base64_encode (s : List Nat) : Option (Except Utf8Error (List Nat)) := do
  let vec ← base64_encode_bytes s
  match run_utf8_validation vec with
  | Except.ok _ => pure (Except.ok vec)
  | Except.error e => pure (Except.error e)

/-- lib.rs `base64_decode` (the `String` wrapper): decode the bytes,
then interpret the decoded bytes as UTF-8 text; a padding failure and a
UTF-8 failure produce distinct `Base64Error` values. -/
def base64_decode (s : List Nat) : Option (Except Base64Error (List Nat)) := do
  let decoded_result ← base64_decode_bytes s
  match decoded_result with
  | Except.ok decoded =>
    match run_utf8_validation decoded with
    | Except.ok _ => pure (Except.ok decoded)
    | Except.error error =>
      pure (Except.error { msg := "UTF8 encoding failed", utf8_error := some error })
  | Except.error _ =>
    pure (Except.error { msg := "Decoding failed", utf8_error := none })

/-! ### Arithmetic facts about the buffer-size formulas -/

theorem ceil_div_three (n : ℕ) : Int.ceil ((n : ℚ) / 3) = ((n + 2) / 3 : ℕ) := by
  set m := (n + 2) / 3 with hm
  have hAq : (3:ℚ) * m < n + 3 := by exact_mod_cast (by omega : 3 * m < n + 3)
  have hBq : (n:ℚ) ≤ 3 * m := by exact_mod_cast (by omega : n ≤ 3 * m)
  rw [Int.ceil_eq_iff]
  refine ⟨?_, ?_⟩
  · rw [lt_div_iff₀ (by norm_num : (0:ℚ) < 3), Int.cast_natCast]
    linarith
  · rw [div_le_iff₀ (by norm_num : (0:ℚ) < 3), Int.cast_natCast]
    linarith

theorem floor_mul_three_div_four (r : ℕ) :
    Int.floor ((r : ℚ) * 3 / 4) = ((3 * r) / 4 : ℕ) := by
  set m := (3 * r) / 4 with hm
  have hAq : (4:ℚ) * m ≤ 3 * r := by exact_mod_cast (by omega : 4 * m ≤ 3 * r)
  have hBq : (3:ℚ) * r < 4 * m + 4 := by exact_mod_cast (by omega : 3 * r < 4 * m + 4)
  rw [Int.floor_eq_iff]
  refine ⟨?_, ?_⟩
  · rw [le_div_iff₀ (by norm_num : (0:ℚ) < 4), Int.cast_natCast]
    linarith
  · rw [div_lt_iff₀ (by norm_num : (0:ℚ) < 4), Int.cast_natCast]
    linarith

theorem encode_calc_byte_size_eq (bytes : List Nat) :
    encode_calc_byte_size bytes = ((bytes.length + 2) / 3) * 4 := rfl

/-- The natural-number definition of `encode_calc_byte_size` agrees with
the source's exact-arithmetic formula `ceil((n * 4 / 3) / 4) * 4`. -/
theorem encode_calc_byte_size_spec (bytes : List Nat) :
    (encode_calc_byte_size bytes : ℤ)
      = Int.ceil (((bytes.length : ℚ) * 4 / 3) / 4) * 4 := by
  have h : ((bytes.length : ℚ) * 4 / 3) / 4 = (bytes.length : ℚ) / 3 := by ring
  rw [h, ceil_div_three]
  unfold encode_calc_byte_size
  push_cast
  ring

theorem decode_calc_byte_size_eq (bytes : List Nat) :
    decode_calc_byte_size bytes = (3 * bytes.findIdx (fun r => r == 61)) / 4 := rfl

/-- The natural-number definition of `decode_calc_byte_size` agrees with
the source's exact-arithmetic formula `floor(real_length * 3 / 4)`. -/
theorem decode_calc_byte_size_spec (bytes : List Nat) :
    (decode_calc_byte_size bytes : ℤ)
      = Int.floor ((bytes.findIdx (fun r => r == 61) : ℚ) * 3 / 4) := by
  rw [floor_mul_three_div_four]
  unfold decode_calc_byte_size
  push_cast
  ring

/-! ### Buffer-write (slice assignment) lemmas -/

theorem writeAt_length {res : List Nat} {s : Nat} {src : List Nat}
    (h : s + src.length ≤ res.length) : (writeAt res s src).length = res.length := by
  simp only [writeAt, List.length_append, List.length_take, List.length_drop]
  omega

theorem writeAt_nil {res : List Nat} {s : Nat} : writeAt res s [] = res := by
  simp [writeAt]

theorem storeSlice_some {res : List Nat} {s : Nat} {src : List Nat}
    (h : s + src.length ≤ res.length) :
    storeSlice res s src = some (writeAt res s src) := by
  simp [storeSlice, h]

theorem storeSlice_length {res : List Nat} {s : Nat} {src out : List Nat}
    (h : storeSlice res s src = some out) : out.length = res.length := by
  unfold storeSlice at h
  split at h
  · cases h
    exact writeAt_length (by assumption)
  · cases h

theorem writeAt_take {res : List Nat} {s : Nat} {src : List Nat}
    (h : s + src.length ≤ res.length) :
    (writeAt res s src).take (s + src.length) = res.take s ++ src := by
  unfold writeAt
  apply List.take_left'
  simp only [List.length_append, List.length_take]
  omega

theorem writeAt_drop {res : List Nat} {s : Nat} {src : List Nat} {m : Nat}
    (h : s + src.length ≤ res.length) (hm : s + src.length ≤ m) :
    (writeAt res s src).drop m = res.drop m := by
  have h2 : m = (res.take s ++ src).length + (m - (s + src.length)) := by
    simp only [List.length_append, List.length_take]
    omega
  conv_lhs => rw [writeAt, h2, ← List.drop_drop, List.drop_left, List.drop_drop]
  congr 1
  omega

theorem writeAt_append {res : List Nat} {s : Nat} {a b : List Nat}
    (h : s + a.length ≤ res.length) :
    writeAt (writeAt res s a) (s + a.length) b = writeAt res s (a ++ b) := by
  have h1 : (writeAt res s a).take (s + a.length) = res.take s ++ a := writeAt_take h
  conv_lhs => rw [writeAt, h1, writeAt_drop h (by omega)]
  rw [writeAt]
  simp only [List.append_assoc, List.length_append]
  rw [Nat.add_assoc]

theorem writeAt_zero {res src : List Nat} :
    writeAt res 0 src = src ++ res.drop src.length := by
  simp [writeAt]

/-! ### Alphabet-table facts -/

theorem std_length : BASE_64_ENCODING_CHARS.length = 64 := by decide

theorem std_getD_lt_128 : ∀ i, i < 64 → BASE_64_ENCODING_CHARS.getD i 0 < 128 := by decide

theorem std_getD_ne_61 : ∀ i, i < 64 → BASE_64_ENCODING_CHARS.getD i 0 ≠ 61 := by decide

theorem std_get?_eq (i : Nat) (h : i < 64) :
    BASE_64_ENCODING_CHARS.get? i = some (BASE_64_ENCODING_CHARS.getD i 0) := by
  rw [List.get?_eq_getElem?, List.getD_eq_getElem?_getD,
    List.getElem?_eq_getElem (by rw [std_length]; exact h)]
  rfl

/-! ### The four 6-bit values of a trio are below 64 -/

theorem sixbit_first_lt (a : Nat) : (a % 256) >>> 2 < 64 := by
  have : a % 256 < 256 := Nat.mod_lt _ (by norm_num)
  simp only [Nat.shiftRight_eq_div_pow]
  omega

theorem sixbit_second_lt (a b : Nat) :
    ((b % 256) >>> 4) ||| (((a % 256) &&& 3) <<< 4) < 64 := by
  have h1 : (b % 256) >>> 4 < 64 := by
    have : b % 256 < 256 := Nat.mod_lt _ (by norm_num)
    simp only [Nat.shiftRight_eq_div_pow]
    omega
  have h2 : ((a % 256) &&& 3) <<< 4 < 64 := by
    have : (a % 256) &&& 3 ≤ 3 := Nat.and_le_right
    simp only [Nat.shiftLeft_eq]
    omega
  exact Nat.or_lt_two_pow (n := 6) h1 h2

theorem sixbit_third_lt (b c : Nat) :
    ((c % 256) >>> 6) ||| (((b % 256) &&& 15) <<< 2) < 64 := by
  have h1 : (c % 256) >>> 6 < 64 := by
    have : c % 256 < 256 := Nat.mod_lt _ (by norm_num)
    simp only [Nat.shiftRight_eq_div_pow]
    omega
  have h2 : ((b % 256) &&& 15) <<< 2 < 64 := by
    have : (b % 256) &&& 15 ≤ 15 := Nat.and_le_right
    simp only [Nat.shiftLeft_eq]
    omega
  exact Nat.or_lt_two_pow (n := 6) h1 h2

theorem sixbit_fourth_lt (c : Nat) : (c % 256) &&& 63 < 64 :=
  Nat.lt_succ_of_le Nat.and_le_right

/-! ### Character-level descriptions of the three quartet emitters -/

/-- The four characters `encode_trio` emits for the trio `a b c`. -/
def trioChars (a b c : Nat) : List Nat :=
  [BASE_64_ENCODING_CHARS.getD ((a % 256) >>> 2) 0,
   BASE_64_ENCODING_CHARS.getD (((b % 256) >>> 4) ||| (((a % 256) &&& 3) <<< 4)) 0,
   BASE_64_ENCODING_CHARS.getD (((c % 256) >>> 6) ||| (((b % 256) &&& 15) <<< 2)) 0,
   BASE_64_ENCODING_CHARS.getD ((c % 256) &&& 63) 0]

/-- The four bytes `encode_duo` emits for the leftover pair `a b`. -/
def duoChars (a b : Nat) : List Nat :=
  (trioChars a b 63).take 3 ++ [PADDING_CHAR]

/-- The four bytes `encode_uno` emits for the leftover byte `a`. -/
def unoChars (a : Nat) : List Nat :=
  (trioChars a 15 255).take 2 ++ [PADDING_CHAR, PADDING_CHAR]

theorem trioChars_length (a b c : Nat) : (trioChars a b c).length = 4 := rfl

theorem duoChars_length (a b : Nat) : (duoChars a b).length = 4 := rfl

theorem unoChars_length (a : Nat) : (unoChars a).length = 4 := rfl

theorem encode_trio_eq (a b c : Nat) :
    encode_trio [a, b, c] = some (trioChars a b c) := by
  unfold encode_trio bytes_encode_trio
  simp only [List.length_cons, List.length_nil, if_pos]
  rw [Option.bind_eq_bind]
  simp only [Option.some_bind]
  rw [std_get?_eq _ (sixbit_first_lt a), std_get?_eq _ (sixbit_second_lt a b),
    std_get?_eq _ (sixbit_third_lt b c), std_get?_eq _ (sixbit_fourth_lt c)]
  rfl

theorem encode_duo_eq (a b : Nat) :
    encode_duo [a, b] = some (duoChars a b) := by
  unfold encode_duo bytes_encode_trio
  simp only [List.length_cons, List.length_nil, if_pos]
  rw [Option.bind_eq_bind]
  simp only [Option.some_bind]
  rw [std_get?_eq _ (sixbit_first_lt a), std_get?_eq _ (sixbit_second_lt a b),
    std_get?_eq _ (sixbit_third_lt b 63)]
  rfl

theorem encode_uno_eq (a : Nat) :
    encode_uno [a] = some (unoChars a) := by
  unfold encode_uno bytes_encode_trio
  simp only [List.length_cons, List.length_nil, if_pos]
  rw [Option.bind_eq_bind]
  simp only [Option.some_bind]
  rw [std_get?_eq _ (sixbit_first_lt a), std_get?_eq _ (sixbit_second_lt a 15)]
  rfl

/-! ### Characterization of the encoder -/

def encodeFullChars : List Nat → List Nat
  | b0 :: b1 :: b2 :: rest => trioChars b0 b1 b2 ++ encodeFullChars rest
  | [] => []
  | [_] => []
  | [_, _] => []

theorem encodeLoop_stop {bytes res : List Nat} {p i : Nat} :
    encodeLoop bytes 0 res p i = some (res, p) := rfl

theorem encodeLoop_skip {bytes res : List Nat} {g p i : Nat} (h2 : i % 3 ≠ 2) :
    encodeLoop bytes (g + 1) res p i = encodeLoop bytes g res p (i + 1) := by
  rw [encodeLoop]
  simp [h2]

theorem encodeLoop_write {bytes res : List Nat} {g p i : Nat} (h2 : i % 3 = 2) :
    encodeLoop bytes (g + 1) res p i = (do
      let quartet ← encode_trio ((bytes.drop (i - 2)).take 3)
      let res' ← storeSlice res p quartet
      encodeLoop bytes g res' (p + 4) (i + 1)) := by
  rw [encodeLoop]
  simp [h2]

theorem encodeFullChars_length (l : List Nat) :
    (encodeFullChars l).length = 4 * (l.length / 3) := by
  induction l using encodeFullChars.induct with
  | case1 b0 b1 b2 rest ih =>
    simp only [encodeFullChars, List.length_append, trioChars_length, ih, List.length_cons]
    omega
  | case2 => simp [encodeFullChars]
  | case3 => simp [encodeFullChars]
  | case4 => simp [encodeFullChars]

theorem encodeLoop_spec (bytes : List Nat) (l : List Nat) :
    ∀ (k p : Nat) (res : List Nat), bytes.drop (3 * k) = l →
      p + 4 * (l.length / 3) ≤ res.length →
      encodeLoop bytes (bytes.length - (3 * k + 1)) res p (3 * k + 1) =
        some (writeAt res p (encodeFullChars l), p + 4 * (l.length / 3)) := by
  induction l using encodeFullChars.induct with
  | case1 b0 b1 b2 rest ih =>
    intro k p res hdrop hbound
    have hlen : bytes.length = 3 * k + 3 + rest.length := by
      have h1 : (bytes.drop (3 * k)).length = bytes.length - 3 * k := List.length_drop _ _
      rw [hdrop] at h1
      simp only [List.length_cons] at h1
      omega
    have hql : (3 + rest.length) / 3 = 1 + rest.length / 3 := by omega
    have hg1 : bytes.length - (3 * k + 1) = (bytes.length - (3 * k + 2)) + 1 := by omega
    rw [hg1, encodeLoop_skip (by omega)]
    have hg2 : bytes.length - (3 * k + 2) = (bytes.length - (3 * k + 3)) + 1 := by omega
    rw [hg2, encodeLoop_write (by omega)]
    have htrio : (bytes.drop (3 * k + 2 - 2)).take 3 = [b0, b1, b2] := by
      have : 3 * k + 2 - 2 = 3 * k := by omega
      rw [this, hdrop]
      rfl
    rw [htrio, encode_trio_eq]
    have hp4 : p + 4 ≤ res.length := by
      simp only [List.length_cons] at hbound ⊢
      omega
    rw [Option.bind_eq_bind, Option.some_bind,
      storeSlice_some (by rw [trioChars_length]; omega), Option.some_bind]
    by_cases hrest : rest = []
    · subst hrest
      have hg0 : bytes.length - (3 * k + 3) = 0 := by
        simp only [List.length_nil] at hlen
        omega
      rw [hg0, encodeLoop_stop]
      simp only [encodeFullChars, List.append_nil, List.length_cons, List.length_nil]
    · have hrl : 0 < rest.length := List.length_pos.mpr hrest
      have hg3 : bytes.length - (3 * k + 3) = (bytes.length - (3 * k + 4)) + 1 := by omega
      rw [hg3, encodeLoop_skip (by omega)]
      have hstep : 3 * k + 1 + 1 + 1 + 1 = 3 * (k + 1) + 1 := by omega
      rw [hstep]
      have hdrop' : bytes.drop (3 * (k + 1)) = rest := by
        have h3 : 3 * (k + 1) = 3 * k + 3 := by omega
        rw [h3, ← List.drop_drop, hdrop]
        rfl
      have hwl : (writeAt res p (trioChars b0 b1 b2)).length = res.length :=
        writeAt_length (by rw [trioChars_length]; omega)
      rw [ih (k + 1) (p + 4) _ hdrop' (by rw [hwl]; simp only [List.length_cons] at hbound; omega)]
      have hwah : p + (trioChars b0 b1 b2).length ≤ res.length := by
        rw [trioChars_length]
        omega
      have hwa := writeAt_append (s := p) (a := trioChars b0 b1 b2)
        (b := encodeFullChars rest) hwah
      rw [trioChars_length] at hwa
      rw [hwa]
      simp only [encodeFullChars, List.length_cons, Option.some.injEq, Prod.mk.injEq]
      refine ⟨trivial, ?_⟩
      omega
  | case2 =>
    intro k p res hdrop hbound
    have hlen : bytes.length ≤ 3 * k := by
      have h1 : (bytes.drop (3 * k)).length = bytes.length - 3 * k := List.length_drop _ _
      rw [hdrop] at h1
      simp at h1
      omega
    have hg0 : bytes.length - (3 * k + 1) = 0 := by omega
    rw [hg0, encodeLoop_stop]
    simp only [encodeFullChars, List.length_nil]
    rw [writeAt_nil]
    norm_num
  | case3 a =>
    intro k p res hdrop hbound
    have hlen : bytes.length = 3 * k + 1 := by
      have h1 : (bytes.drop (3 * k)).length = bytes.length - 3 * k := List.length_drop _ _
      rw [hdrop] at h1
      simp at h1
      omega
    have hg0 : bytes.length - (3 * k + 1) = 0 := by omega
    rw [hg0, encodeLoop_stop]
    simp only [encodeFullChars, List.length_cons, List.length_nil]
    rw [writeAt_nil]
    norm_num
  | case4 a b =>
    intro k p res hdrop hbound
    have hlen : bytes.length = 3 * k + 2 := by
      have h1 : (bytes.drop (3 * k)).length = bytes.length - 3 * k := List.length_drop _ _
      rw [hdrop] at h1
      simp at h1
      omega
    have hg1 : bytes.length - (3 * k + 1) = 0 + 1 := by omega
    rw [hg1, encodeLoop_skip (by omega), encodeLoop_stop]
    simp only [encodeFullChars, List.length_cons, List.length_nil]
    rw [writeAt_nil]
    norm_num

/-- The bytes that the tail handling of `base64_encode_bytes` appends
for the leftover bytes after the full trios. -/
def encodeTailChars (leftover : List Nat) : List Nat :=
  match leftover with
  | [a, b] => duoChars a b
  | [a] => unoChars a
  | _ => []

theorem writeAt_last {X q : List Nat} {s : Nat} (h : X.length = s + q.length) :
    writeAt X s q = X.take s ++ q := by
  unfold writeAt
  rw [List.drop_eq_nil_of_le (by omega)]
  simp

theorem base64_encode_bytes_eq (bytes : List Nat) :
    base64_encode_bytes bytes =
      some (encodeFullChars bytes ++ encodeTailChars (bytes.drop (3 * (bytes.length / 3)))) := by
  have htarget : encode_calc_byte_size bytes = ((bytes.length + 2) / 3) * 4 :=
    encode_calc_byte_size_eq bytes
  have hQlen : (encodeFullChars bytes).length = 4 * (bytes.length / 3) :=
    encodeFullChars_length bytes
  have key := encodeLoop_spec bytes bytes 0 0 (List.replicate (encode_calc_byte_size bytes) 0)
    (by simp) (by rw [List.length_replicate]; omega)
  norm_num at key
  have hres1 : writeAt (List.replicate (encode_calc_byte_size bytes) 0) 0 (encodeFullChars bytes)
      = encodeFullChars bytes
        ++ List.replicate (encode_calc_byte_size bytes - (encodeFullChars bytes).length) 0 := by
    rw [writeAt_zero, List.drop_replicate]
  have hlv : (bytes.drop (3 * (bytes.length / 3))).length = bytes.length % 3 := by
    rw [List.length_drop]
    omega
  unfold base64_encode_bytes
  simp only []
  split
  case _ heq =>
    rw [key] at heq
    cases heq
  case _ res _pos heq =>
    rw [key, hres1] at heq
    injection heq with hp
    injection hp with h1 h2
    subst h1
    subst h2
    have hres1len : (encodeFullChars bytes
        ++ List.replicate (encode_calc_byte_size bytes - (encodeFullChars bytes).length) 0).length
        = encode_calc_byte_size bytes := by
      simp only [List.length_append, List.length_replicate]
      omega
    have h3 : bytes.length % 3 = 0 ∨ bytes.length % 3 = 1 ∨ bytes.length % 3 = 2 := by omega
    rcases h3 with h | h | h
    · -- no leftover bytes
      rw [if_neg (by omega)]
      have hleft : bytes.drop (3 * (bytes.length / 3)) = [] :=
        List.drop_eq_nil_of_le (by omega)
      rw [hleft]
      have hz : encode_calc_byte_size bytes - (encodeFullChars bytes).length = 0 := by omega
      rw [hz]
      simp [encodeTailChars]
    · -- one leftover byte
      rw [if_pos (by omega), if_neg (by omega)]
      have hleq : bytes.length - bytes.length % 3 = 3 * (bytes.length / 3) := by omega
      rw [hleq]
      obtain ⟨a, hab⟩ := List.length_eq_one.mp (by rw [hlv, h])
      rw [hab, encode_uno_eq]
      rw [Option.bind_eq_bind, Option.some_bind]
      rw [if_pos (by rw [unoChars_length]; omega)]
      rw [unoChars_length]
      have hwrite : storeSlice
          (encodeFullChars bytes
            ++ List.replicate (encode_calc_byte_size bytes - (encodeFullChars bytes).length) 0)
          (encode_calc_byte_size bytes - 4) (unoChars a)
          = some (encodeFullChars bytes ++ unoChars a) := by
        rw [storeSlice_some (by rw [hres1len, unoChars_length]; omega)]
        congr 1
        rw [writeAt_last (by rw [hres1len, unoChars_length]; omega)]
        congr 1
        have h4 : encode_calc_byte_size bytes - 4 = (encodeFullChars bytes).length := by omega
        rw [h4, List.take_left]
      rw [hwrite, encodeTailChars]
    · -- two leftover bytes
      rw [if_pos (by omega), if_pos (by omega)]
      have hleq : bytes.length - bytes.length % 3 = 3 * (bytes.length / 3) := by omega
      rw [hleq]
      obtain ⟨a, b, hab⟩ := List.length_eq_two.mp (by rw [hlv, h])
      rw [hab, encode_duo_eq]
      rw [Option.bind_eq_bind, Option.some_bind]
      rw [if_pos (by rw [duoChars_length]; omega)]
      rw [duoChars_length]
      have hwrite : storeSlice
          (encodeFullChars bytes
            ++ List.replicate (encode_calc_byte_size bytes - (encodeFullChars bytes).length) 0)
          (encode_calc_byte_size bytes - 4) (duoChars a b)
          = some (encodeFullChars bytes ++ duoChars a b) := by
        rw [storeSlice_some (by rw [hres1len, duoChars_length]; omega)]
        congr 1
        rw [writeAt_last (by rw [hres1len, duoChars_length]; omega)]
        congr 1
        have h4 : encode_calc_byte_size bytes - 4 = (encodeFullChars bytes).length := by omega
        rw [h4, List.take_left]
      rw [hwrite, encodeTailChars]

/-! ### Membership and padding-count facts about encoder output -/

theorem getD_mem_of_lt {l : List Nat} {i : Nat} (h : i < l.length) : l.getD i 0 ∈ l := by
  rw [List.getD_eq_getElem?_getD, List.getElem?_eq_getElem h]
  exact List.getElem_mem h

theorem trioChars_mem {a b c x : Nat} (h : x ∈ trioChars a b c) :
    x ∈ BASE_64_ENCODING_CHARS := by
  have h64 : BASE_64_ENCODING_CHARS.length = 64 := std_length
  simp only [trioChars, List.mem_cons, List.not_mem_nil, or_false] at h
  rcases h with rfl | rfl | rfl | rfl
  · exact getD_mem_of_lt (by rw [h64]; exact sixbit_first_lt a)
  · exact getD_mem_of_lt (by rw [h64]; exact sixbit_second_lt a b)
  · exact getD_mem_of_lt (by rw [h64]; exact sixbit_third_lt b c)
  · exact getD_mem_of_lt (by rw [h64]; exact sixbit_fourth_lt c)

theorem mem_encodeFullChars {x : Nat} {l : List Nat} (h : x ∈ encodeFullChars l) :
    x ∈ BASE_64_ENCODING_CHARS := by
  induction l using encodeFullChars.induct with
  | case1 b0 b1 b2 rest ih =>
    rw [encodeFullChars] at h
    rcases List.mem_append.mp h with h | h
    · exact trioChars_mem h
    · exact ih h
  | case2 => cases h
  | case3 => cases h
  | case4 => cases h

theorem std_mem_ne_61 {x : Nat} (h : x ∈ BASE_64_ENCODING_CHARS) : x ≠ 61 := by
  intro hx
  subst hx
  exact absurd h (by decide)

theorem std_mem_lt_128 {x : Nat} (h : x ∈ BASE_64_ENCODING_CHARS) : x < 128 := by
  have hall : ∀ y ∈ BASE_64_ENCODING_CHARS, y < 128 := by decide
  exact hall x h

/-- Number of trailing padding bytes of an encoded buffer. -/
def padCount (l : List Nat) : Nat :=
  (l.reverse.takeWhile (fun b => b == 61)).length

theorem padCount_of_all_ne {l : List Nat} (h : ∀ x ∈ l, x ≠ 61) : padCount l = 0 := by
  unfold padCount
  cases hrev : l.reverse with
  | nil => rfl
  | cons a t =>
    have ha : a ∈ l := by
      rw [← List.mem_reverse, hrev]
      exact List.mem_cons_self a t
    rw [List.takeWhile_cons_of_neg (by simp [h a ha])]
    rfl

theorem padCount_pad1 {Q : List Nat} {c0 c1 c2 : Nat} (h2 : c2 ≠ 61) :
    padCount (Q ++ [c0, c1, c2, 61]) = 1 := by
  unfold padCount
  rw [List.reverse_append]
  have hr : ([c0, c1, c2, 61] : List Nat).reverse = [61, c2, c1, c0] := rfl
  rw [hr]
  rw [List.cons_append, List.takeWhile_cons_of_pos (by simp),
    List.cons_append, List.takeWhile_cons_of_neg (by simp [h2])]
  rfl

theorem padCount_pad2 {Q : List Nat} {c0 c1 : Nat} (h1 : c1 ≠ 61) :
    padCount (Q ++ [c0, c1, 61, 61]) = 2 := by
  unfold padCount
  rw [List.reverse_append]
  have hr : ([c0, c1, 61, 61] : List Nat).reverse = [61, 61, c1, c0] := rfl
  rw [hr]
  rw [List.cons_append, List.takeWhile_cons_of_pos (by simp),
    List.cons_append, List.takeWhile_cons_of_pos (by simp),
    List.cons_append, List.takeWhile_cons_of_neg (by simp [h1])]
  rfl

theorem duoChars_eq_trio0 (a b : Nat) :
    duoChars a b = (trioChars a b 0).take 3 ++ [PADDING_CHAR] := by
  unfold duoChars trioChars
  norm_num [show (63:Nat) >>> 6 = 0 from rfl]

theorem unoChars_eq_trio0 (a : Nat) :
    unoChars a = (trioChars a 0 0).take 2 ++ [PADDING_CHAR, PADDING_CHAR] := by
  unfold unoChars trioChars
  norm_num [show (15:Nat) >>> 4 = 0 from rfl]

theorem encode_out_length (bytes : List Nat) :
    (encodeFullChars bytes
      ++ encodeTailChars (bytes.drop (3 * (bytes.length / 3)))).length
      = ((bytes.length + 2) / 3) * 4 := by
  have hQ : (encodeFullChars bytes).length = 4 * (bytes.length / 3) :=
    encodeFullChars_length bytes
  have hlv : (bytes.drop (3 * (bytes.length / 3))).length = bytes.length % 3 := by
    rw [List.length_drop]
    omega
  rw [List.length_append, hQ]
  have h3 : bytes.length % 3 = 0 ∨ bytes.length % 3 = 1 ∨ bytes.length % 3 = 2 := by omega
  rcases h3 with h | h | h
  · have hz : (bytes.drop (3 * (bytes.length / 3))).length = 0 := by omega
    rw [List.eq_nil_of_length_eq_zero hz]
    simp only [encodeTailChars, List.length_nil]
    omega
  · have hz : (bytes.drop (3 * (bytes.length / 3))).length = 1 := by omega
    obtain ⟨a, ha⟩ := List.length_eq_one.mp hz
    rw [ha]
    simp only [encodeTailChars, unoChars_length]
    omega
  · have hz : (bytes.drop (3 * (bytes.length / 3))).length = 2 := by omega
    obtain ⟨a, b, hab⟩ := List.length_eq_two.mp hz
    rw [hab]
    simp only [encodeTailChars, duoChars_length]
    omega

/-- C5: for every byte sequence, `encode_calc_byte_size` computes
`ceil(len/3) * 4` up front, encoding succeeds, and the output has
exactly that length. -/
theorem C5_encode_length_law (bytes : List Nat) :
    encode_calc_byte_size bytes = ((bytes.length + 2) / 3) * 4 ∧
    ∃ out, base64_encode_bytes bytes = some out ∧
      out.length = ((bytes.length + 2) / 3) * 4 := by
  refine ⟨encode_calc_byte_size_eq bytes, _, base64_encode_bytes_eq bytes, ?_⟩
  exact encode_out_length bytes

/-- C10: the filler byte 63 used by `encode_duo` and the filler bytes
15 and 255 used by `encode_uno` never influence the emitted data
characters: they emit exactly the characters of the zero-extended trio,
truncated to 3 (respectively 2) characters. -/
theorem C10_filler_bytes_invisible (a b : Nat) :
    (encode_duo [a, b]).map (fun q => q.take 3)
      = (encode_trio [a, b, 0]).map (fun q => q.take 3) ∧
    (encode_uno [a]).map (fun q => q.take 2)
      = (encode_trio [a, 0, 0]).map (fun q => q.take 2) := by
  rw [encode_duo_eq, encode_uno_eq, encode_trio_eq, encode_trio_eq]
  constructor
  · simp only [Option.map_some']
    rw [duoChars_eq_trio0]
    have h4 : ∃ t0 t1 t2 t3, trioChars a b 0 = [t0, t1, t2, t3] :=
      ⟨_, _, _, _, rfl⟩
    obtain ⟨t0, t1, t2, t3, ht⟩ := h4
    rw [ht]
    rfl
  · simp only [Option.map_some']
    rw [unoChars_eq_trio0]
    have h4 : ∃ t0 t1 t2 t3, trioChars a 0 0 = [t0, t1, t2, t3] :=
      ⟨_, _, _, _, rfl⟩
    obtain ⟨t0, t1, t2, t3, ht⟩ := h4
    rw [ht]
    rfl

/-- C7: the encoder output ends with exactly `(3 - len % 3) % 3` padding
bytes, and the data characters of the trailing quartet are those of the
leftover bytes completed to a trio with zero bytes. -/
theorem C7_encode_trailing_quartet (bytes : List Nat) :
    ∃ out, base64_encode_bytes bytes = some out ∧
      padCount out = (3 - bytes.length % 3) % 3 ∧
      (bytes.length % 3 = 2 → ∃ a b t, bytes.drop (bytes.length - 2) = [a, b] ∧
        encode_trio [a, b, 0] = some t ∧
        out.drop (out.length - 4) = t.take 3 ++ [PADDING_CHAR]) ∧
      (bytes.length % 3 = 1 → ∃ a t, bytes.drop (bytes.length - 1) = [a] ∧
        encode_trio [a, 0, 0] = some t ∧
        out.drop (out.length - 4) = t.take 2 ++ [PADDING_CHAR, PADDING_CHAR]) := by
  have hQ : (encodeFullChars bytes).length = 4 * (bytes.length / 3) :=
    encodeFullChars_length bytes
  have hlv : (bytes.drop (3 * (bytes.length / 3))).length = bytes.length % 3 := by
    rw [List.length_drop]
    omega
  refine ⟨_, base64_encode_bytes_eq bytes, ?_, ?_, ?_⟩
  · -- trailing padding count
    have h3 : bytes.length % 3 = 0 ∨ bytes.length % 3 = 1 ∨ bytes.length % 3 = 2 := by omega
    rcases h3 with h | h | h
    · have hz : (bytes.drop (3 * (bytes.length / 3))).length = 0 := by omega
      rw [List.eq_nil_of_length_eq_zero hz]
      rw [h]
      rw [padCount_of_all_ne]
      intro x hx
      have he : encodeTailChars [] = [] := rfl
      rw [he, List.append_nil] at hx
      exact std_mem_ne_61 (mem_encodeFullChars hx)
    · have hz : (bytes.drop (3 * (bytes.length / 3))).length = 1 := by omega
      obtain ⟨a, ha⟩ := List.length_eq_one.mp hz
      rw [ha, h]
      obtain ⟨t0, t1, t2, t3, ht⟩ :
          ∃ t0 t1 t2 t3, trioChars a 15 255 = [t0, t1, t2, t3] := ⟨_, _, _, _, rfl⟩
      have hu : encodeTailChars [a] = [t0, t1, 61, 61] := by
        simp only [encodeTailChars]
        unfold unoChars
        rw [ht]
        rfl
      rw [hu, padCount_pad2]
      exact std_mem_ne_61 (trioChars_mem (by rw [ht]; simp))
    · have hz : (bytes.drop (3 * (bytes.length / 3))).length = 2 := by omega
      obtain ⟨a, b, hab⟩ := List.length_eq_two.mp hz
      rw [hab, h]
      obtain ⟨t0, t1, t2, t3, ht⟩ :
          ∃ t0 t1 t2 t3, trioChars a b 63 = [t0, t1, t2, t3] := ⟨_, _, _, _, rfl⟩
      have hu : encodeTailChars [a, b] = [t0, t1, t2, 61] := by
        simp only [encodeTailChars]
        unfold duoChars
        rw [ht]
        rfl
      rw [hu, padCount_pad1]
      exact std_mem_ne_61 (trioChars_mem (by rw [ht]; simp))
  · -- two leftover bytes
    intro h
    have hz : (bytes.drop (3 * (bytes.length / 3))).length = 2 := by omega
    obtain ⟨a, b, hab⟩ := List.length_eq_two.mp hz
    have hd2 : bytes.length - 2 = 3 * (bytes.length / 3) := by omega
    refine ⟨a, b, trioChars a b 0, by rw [hd2]; exact hab, encode_trio_eq a b 0, ?_⟩
    rw [hab]
    simp only [encodeTailChars]
    have hlen4 : (encodeFullChars bytes ++ duoChars a b).length
        = (encodeFullChars bytes).length + 4 := by
      rw [List.length_append, duoChars_length]
    rw [hlen4, Nat.add_sub_cancel, List.drop_left]
    exact duoChars_eq_trio0 a b
  · -- one leftover byte
    intro h
    have hz : (bytes.drop (3 * (bytes.length / 3))).length = 1 := by omega
    obtain ⟨a, ha⟩ := List.length_eq_one.mp hz
    have hd1 : bytes.length - 1 = 3 * (bytes.length / 3) := by omega
    refine ⟨a, trioChars a 0 0, by rw [hd1]; exact ha, encode_trio_eq a 0 0, ?_⟩
    rw [ha]
    simp only [encodeTailChars]
    have hlen4 : (encodeFullChars bytes ++ unoChars a).length
        = (encodeFullChars bytes).length + 4 := by
      rw [List.length_append, unoChars_length]
    rw [hlen4, Nat.add_sub_cancel, List.drop_left]
    exact unoChars_eq_trio0 a

/-! ### ASCII output and the text wrappers -/

theorem mem_encodeTailChars {x : Nat} {lv : List Nat} (h : x ∈ encodeTailChars lv) :
    x ∈ BASE_64_ENCODING_CHARS ∨ x = 61 := by
  rcases lv with - | ⟨a, - | ⟨b, - | ⟨c, t⟩⟩⟩
  · cases h
  · simp only [encodeTailChars] at h
    unfold unoChars at h
    rcases List.mem_append.mp h with h | h
    · exact Or.inl (trioChars_mem (List.mem_of_mem_take h))
    · right
      simp only [PADDING_CHAR, List.mem_cons, List.not_mem_nil, or_false] at h
      tauto
  · simp only [encodeTailChars] at h
    unfold duoChars at h
    rcases List.mem_append.mp h with h | h
    · exact Or.inl (trioChars_mem (List.mem_of_mem_take h))
    · right
      simp only [PADDING_CHAR, List.mem_cons, List.not_mem_nil, or_false] at h
      tauto
  · have he : encodeTailChars (a :: b :: c :: t) = [] := rfl
    rw [he] at h
    cases h

theorem utf8_width_ascii {b : Nat} (rest : List Nat) (h : b < 0x80) :
    utf8_width b rest = some 1 := by
  unfold utf8_width
  rw [if_pos h]

theorem utf8_run_ascii :
    ∀ (fuel : Nat) (v : List Nat) (i : Nat), v.length ≤ fuel →
      (∀ b ∈ v, b < 128) → utf8_run fuel v i = Except.ok () := by
  intro fuel
  induction fuel with
  | zero =>
    intro v i hl _
    rcases v with - | ⟨b, rest⟩
    · rfl
    · simp at hl
  | succ f ih =>
    intro v i hl hb
    rcases v with - | ⟨b, rest⟩
    · rfl
    · rw [utf8_run, utf8_width_ascii rest (hb b (List.mem_cons_self b rest))]
      show utf8_run f (rest.drop 0) (i + 1) = Except.ok ()
      rw [List.drop_zero]
      refine ih rest (i + 1) ?_ (fun x hx => hb x (List.mem_cons_of_mem b hx))
      simp only [List.length_cons] at hl
      omega

theorem encode_bytes_output_ascii (bytes out : List Nat)
    (h : base64_encode_bytes bytes = some out) : ∀ x ∈ out, x < 128 := by
  rw [base64_encode_bytes_eq] at h
  cases h
  intro x hx
  rcases List.mem_append.mp hx with hx | hx
  · exact std_mem_lt_128 (mem_encodeFullChars hx)
  · rcases mem_encodeTailChars hx with hx | hx
    · exact std_mem_lt_128 hx
    · omega

/-- C9: the `String`-level encoder always succeeds (encoded bytes are
always valid UTF-8), and the `String`-level decoder fails in exactly two
distinguishable ways: a Base64-layer `PaddingError` (message
"Decoding failed", no UTF-8 detail) or a text-layer failure carrying the
underlying UTF-8 error. -/
theorem C9_wrapper_errors :
    (∀ s : List Nat, ∃ out, base64_encode s = some (Except.ok out)) ∧
    (∀ (s : List Nat) (e : Base64Error),
      base64_decode s = some (Except.error e) →
        (e = { msg := "Decoding failed", utf8_error := none } ∧
          base64_decode_bytes s = some (Except.error {})) ∨
        (∃ u d, e = { msg := "UTF8 encoding failed", utf8_error := some u } ∧
          base64_decode_bytes s = some (Except.ok d) ∧
          run_utf8_validation d = Except.error u)) := by
  constructor
  · intro s
    have hout := base64_encode_bytes_eq s
    refine ⟨encodeFullChars s ++ encodeTailChars (s.drop (3 * (s.length / 3))), ?_⟩
    unfold base64_encode
    rw [hout, Option.bind_eq_bind, Option.some_bind]
    unfold run_utf8_validation
    rw [utf8_run_ascii _ _ 0 le_rfl (encode_bytes_output_ascii s _ hout)]
    rfl
  · intro s e h
    rcases hd : base64_decode_bytes s with - | dr
    · have hv : base64_decode s = none := by
        unfold base64_decode
        rw [hd]
        rfl
      rw [hv] at h
      cases h
    · rcases dr with pe | decoded
      · cases pe
        have hval : base64_decode s
            = some (Except.error { msg := "Decoding failed", utf8_error := none }) := by
          unfold base64_decode
          rw [hd]
          rfl
        rw [hval] at h
        cases h
        left
        exact ⟨rfl, rfl⟩
      · rcases hv : run_utf8_validation decoded with u | uv
        · have hval : base64_decode s
              = some (Except.error { msg := "UTF8 encoding failed", utf8_error := some u }) := by
            unfold base64_decode
            rw [hd, Option.bind_eq_bind, Option.some_bind]
            have hred : (match run_utf8_validation decoded with
                | Except.ok _ => some (Except.ok decoded)
                | Except.error error =>
                  some (Except.error { msg := "UTF8 encoding failed", utf8_error := some error })
                : Option (Except Base64Error (List Nat)))
                = some (Except.error { msg := "UTF8 encoding failed", utf8_error := some u }) := by
              rw [hv]
            exact hred
          rw [hval] at h
          cases h
          right
          exact ⟨u, decoded, rfl, rfl, hv⟩
        · have hval : base64_decode s = some (Except.ok decoded) := by
            unfold base64_decode
            rw [hd, Option.bind_eq_bind, Option.some_bind]
            have hred : (match run_utf8_validation decoded with
                | Except.ok _ => some (Except.ok decoded)
                | Except.error error =>
                  some (Except.error { msg := "UTF8 encoding failed", utf8_error := some error })
                : Option (Except Base64Error (List Nat)))
                = some (Except.ok decoded) := by
              rw [hv]
            exact hred
          rw [hval] at h
          cases h

/-! ### Decoder loop lemmas -/

theorem decodeLoop_stop {bytes res : List Nat} {p i : Nat} :
    decodeLoop bytes 0 res p i = some (res, p) := rfl

theorem decodeLoop_skip {bytes res : List Nat} {g p i : Nat} (h2 : i % 4 ≠ 3) :
    decodeLoop bytes (g + 1) res p i = decodeLoop bytes g res p (i + 1) := by
  rw [decodeLoop]
  simp [h2]

theorem decodeLoop_write {bytes res : List Nat} {g p i : Nat} (h2 : i % 4 = 3) :
    decodeLoop bytes (g + 1) res p i = (do
      let converted ← convert_encoded_bytes ((bytes.drop (i - 3)).take 4)
      let decoded ← decode_quartet converted
      let res' ← storeSlice res p decoded
      decodeLoop bytes g res' (p + 3) (i + 1)) := by
  rw [decodeLoop]
  simp [h2]

theorem decodeLoop_length (bytes : List Nat) :
    ∀ (gas : Nat) (res : List Nat) (p i : Nat) (out : List Nat) (q : Nat),
      decodeLoop bytes gas res p i = some (out, q) → out.length = res.length := by
  intro gas
  induction gas with
  | zero =>
    intro res p i out q h
    injection h with hp
    injection hp with h1 h2
    rw [← h1]
  | succ g ih =>
    intro res p i out q h
    by_cases hm : i % 4 = 3
    · rw [decodeLoop_write hm] at h
      rcases hc : convert_encoded_bytes ((bytes.drop (i - 3)).take 4) with - | conv
      · rw [hc] at h
        simp only [Option.bind_eq_bind, Option.none_bind] at h
        cases h
      · rw [hc] at h
        simp only [Option.bind_eq_bind, Option.some_bind] at h
        rcases hq : decode_quartet conv with - | dec
        · rw [hq] at h
          simp only [Option.none_bind] at h
          cases h
        · rw [hq] at h
          simp only [Option.some_bind] at h
          rcases hs : storeSlice res p dec with - | res1
          · rw [hs] at h
            simp only [Option.none_bind] at h
            cases h
          · rw [hs] at h
            simp only [Option.some_bind] at h
            have h1 : out.length = res1.length := ih res1 (p + 3) (i + 1) out q h
            rw [h1, storeSlice_length hs]
    · rw [decodeLoop_skip hm] at h
      exact ih res p (i + 1) out q h

/-- C6: whenever `base64_decode_bytes` succeeds, the output length is
`floor(real_length * 3 / 4)`, where `real_length` is the index of the
first padding byte, or the input length when there is none. -/
theorem C6_decode_output_length (bytes out : List Nat)
    (h : base64_decode_bytes bytes = some (Except.ok out)) :
    out.length = 3 * (bytes.findIdx (fun r => r == 61)) / 4 := by
  have htgt := decode_calc_byte_size_eq bytes
  unfold base64_decode_bytes at h
  simp only [] at h
  by_cases hlen : bytes.length < 4
  · rw [if_pos hlen] at h
    cases h
  · rw [if_neg hlen] at h
    split at h
    case _ heq => cases h
    case _ res1 _pos heq =>
      rcases hc : convert_encoded_bytes ((bytes.drop (bytes.length - 4)).take 4)
        with - | conv
      · rw [hc] at h
        simp only [Option.bind_eq_bind, Option.none_bind] at h
        cases h
      · rw [hc] at h
        simp only [Option.bind_eq_bind, Option.some_bind] at h
        rcases hi : decode_incomplete conv with - | dr
        · rw [hi] at h
          simp only [Option.none_bind] at h
          cases h
        · rw [hi] at h
          simp only [Option.some_bind] at h
          rcases dr with pe | decoded
          · simp only [] at h
            cases h
          · simp only [] at h
            split at h
            · rcases hs : storeSlice res1
                  (decode_calc_byte_size bytes - decoded.length) decoded with - | res2
              · rw [hs] at h
                simp only [Option.bind_eq_bind, Option.none_bind] at h
                cases h
              · rw [hs] at h
                simp only [Option.bind_eq_bind, Option.some_bind] at h
                have hout : out = res2 := by
                  cases h
                  rfl
                subst hout
                have h1 : out.length = res1.length := storeSlice_length hs
                have h2 : res1.length = decode_calc_byte_size bytes := by
                  have := decodeLoop_length bytes (bytes.length - 4 - 1)
                    (List.replicate (decode_calc_byte_size bytes) 0) 0 1 res1 _pos heq
                  rw [this, List.length_replicate]
                rw [h1, h2, htgt]
            · cases h

/-! ### Concrete evaluations deciding the remaining claims -/

/-- C1: the round-trip property fails on the code: `encode [247]`
produces the bytes of `"9w=="`, whose first byte `'9'` maps to 61 in the
reverse table, colliding with the padding sentinel, so decoding fails
with `PaddingError` instead of returning `[247]`; and
`decode (encode []) = decode []` panics (modelled `none`) instead of
returning `Ok([])`. -/
theorem C1_roundtrip_fails :
    base64_encode_bytes [247] = some [57, 119, 61, 61] ∧
    base64_decode_bytes [57, 119, 61, 61] = some (Except.error {}) ∧
    base64_encode_bytes [] = some [] ∧
    base64_decode_bytes [] = none := by decide

/-- C2 counterexample: the only encode entry point emits `'/'` (47), a
byte outside the URL-safe alphabet and not the padding byte, because it
consults only the standard table; no URL-safe output is ever
produced. -/
theorem C2_counterexample :
    base64_encode_bytes [255, 255, 255] = some [47, 47, 47, 47] ∧
    ¬ (47 ∈ BASE_64_ENCODING_CHARS_URL) ∧ 47 ≠ PADDING_CHAR := by decide

/-- C2 amended: the URL-safe forward table is defined and differs from
the standard table exactly at indices 62 (`'-'` for `'+'`) and 63
(`'_'` for `'/'`), but `base64_encode_bytes` takes no alphabet selector
and its output bytes always come from the standard alphabet (plus
padding). -/
theorem C2_amended :
    (∀ i, i < 62 → BASE_64_ENCODING_CHARS_URL.getD i 0
      = BASE_64_ENCODING_CHARS.getD i 0) ∧
    BASE_64_ENCODING_CHARS_URL.getD 62 0 = 45 ∧
    BASE_64_ENCODING_CHARS_URL.getD 63 0 = 95 ∧
    BASE_64_ENCODING_CHARS.getD 62 0 = 43 ∧
    BASE_64_ENCODING_CHARS.getD 63 0 = 47 ∧
    (∀ bytes out, base64_encode_bytes bytes = some out →
      ∀ x ∈ out, x ∈ BASE_64_ENCODING_CHARS ∨ x = PADDING_CHAR) := by
  refine ⟨by decide, by decide, by decide, by decide, by decide, ?_⟩
  intro bytes out hout x hx
  rw [base64_encode_bytes_eq] at hout
  cases hout
  rcases List.mem_append.mp hx with hx | hx
  · exact Or.inl (mem_encodeFullChars hx)
  · rcases mem_encodeTailChars hx with hx | hx
    · exact Or.inl hx
    · exact Or.inr hx

/-- C2 amended, witness at concrete inputs. -/
theorem C2_amended_witness :
    BASE_64_ENCODING_CHARS_URL.getD 0 0 = BASE_64_ENCODING_CHARS.getD 0 0 ∧
    (∀ x ∈ [47, 47, 47, 47], x ∈ BASE_64_ENCODING_CHARS ∨ x = PADDING_CHAR) :=
  ⟨C2_amended.1 0 (by decide),
   C2_amended.2.2.2.2.2 [255, 255, 255] [47, 47, 47, 47] (by decide)⟩

/-- C3 counterexample: decoding the empty sequence neither returns an
empty output nor an explicit error value: it panics (an out-of-bounds
chunk read after the `usize` range underflow), modelled `none`. -/
theorem C3_counterexample :
    base64_decode_bytes [] ≠ some (Except.ok []) ∧
    ∀ e : PaddingError, base64_decode_bytes [] ≠ some (Except.error e) := by
  refine ⟨by decide, ?_⟩
  intro e
  cases e
  decide

/-- C3 amended: `encode [] = []`, but `decode []` panics (modelled
`none`) rather than returning an empty output or an error value. -/
theorem C3_amended :
    base64_encode_bytes [] = some [] ∧ base64_decode_bytes [] = none := by decide

/-- C8 counterexample: a decode input of valid length containing the
out-of-alphabet byte 200 makes decoding panic (the reverse table has
only 127 entries), refuting "does not panic ... for every such byte
value 0 through 255". -/
theorem C8_counterexample :
    base64_decode_bytes [200, 97, 97, 97] = none ∧
    ¬ (200 ∈ BASE_64_ENCODING_CHARS) ∧ ¬ (200 ∈ BASE_64_ENCODING_CHARS_URL) ∧
    (200 : Nat) ≠ 61 := by decide

set_option maxRecDepth 40000 in
/-- C8 amended: the reverse table silently maps bytes 0–126 outside the
alphabet (other than `'='`) to 0, so such bytes do not make the lookup
panic; bytes 127–255 are out of bounds for the 127-entry table and the
lookup panics. A decode input whose bytes all stay below 127 proceeds to
a result, e.g. `"*aaa"`. -/
theorem C8_amended :
    (∀ b, b < 127 → ¬ (b ∈ BASE_64_ENCODING_CHARS) → b ≠ 61 →
      CHARS_BASE_64_ENCODING.get? b = some 0) ∧
    (∀ b, 127 ≤ b → CHARS_BASE_64_ENCODING.get? b = none) ∧
    base64_decode_bytes [42, 97, 97, 97] = some (Except.ok [1, 166, 154]) := by
  refine ⟨by decide, ?_, by decide⟩
  intro b hb
  rw [List.get?_eq_getElem?]
  apply List.getElem?_eq_none
  rw [show CHARS_BASE_64_ENCODING.length = 127 from by decide]
  exact hb

set_option maxRecDepth 40000 in
/-- C8 amended, witness at concrete bytes. -/
theorem C8_amended_witness :
    CHARS_BASE_64_ENCODING.get? 42 = some 0 ∧
    CHARS_BASE_64_ENCODING.get? 200 = none :=
  ⟨C8_amended.1 42 (by decide) (by decide) (by decide),
   C8_amended.2.1 200 (by decide)⟩

/-- C6 witness: decoding `"TWFu"` yields 3 bytes, matching the length
formula at a concrete input. -/
theorem C6_witness :
    ([77, 97, 110] : List Nat).length
      = 3 * (List.findIdx (fun r => r == 61) [84, 87, 70, 117]) / 4 :=
  C6_decode_output_length [84, 87, 70, 117] [77, 97, 110] (by decide)

/-- C7 witness: encoding `"M"` ends with two padding bytes whose data
characters are those of the zero-extended trio, at a concrete input. -/
theorem C7_witness :
    ∃ out, base64_encode_bytes [77] = some out ∧
      padCount out = (3 - ([77] : List Nat).length % 3) % 3 ∧
      ∃ a t, ([77] : List Nat).drop (([77] : List Nat).length - 1) = [a] ∧
        encode_trio [a, 0, 0] = some t ∧
        out.drop (out.length - 4) = t.take 2 ++ [PADDING_CHAR, PADDING_CHAR] := by
  obtain ⟨out, h1, h2, -, h4⟩ := C7_encode_trailing_quartet [77]
  exact ⟨out, h1, h2, h4 (by decide)⟩

/-- C9 witness: the encoder wrapper succeeds on `"Man"`, and the decoder
wrapper applied to `"yA=="` (which decodes to the invalid UTF-8 byte
200) lands in the text-layer failure branch. -/
theorem C9_witness :
    (∃ out, base64_encode [77, 97, 110] = some (Except.ok out)) ∧
    ((({ msg := "UTF8 encoding failed", utf8_error := some ⟨0⟩ } : Base64Error)
        = { msg := "Decoding failed", utf8_error := none } ∧
      base64_decode_bytes [121, 65, 61, 61] = some (Except.error {})) ∨
     (∃ u d, ({ msg := "UTF8 encoding failed", utf8_error := some ⟨0⟩ } : Base64Error)
          = { msg := "UTF8 encoding failed", utf8_error := some u } ∧
        base64_decode_bytes [121, 65, 61, 61] = some (Except.ok d) ∧
        run_utf8_validation d = Except.error u)) :=
  ⟨C9_wrapper_errors.1 [77, 97, 110],
   C9_wrapper_errors.2 [121, 65, 61, 61]
     { msg := "UTF8 encoding failed", utf8_error := some ⟨0⟩ } (by rfl)⟩

/-! ### Helpers for the decoder's final-chunk analysis -/

theorem list_length_four {l : List Nat} (h : l.length = 4) :
    ∃ a b c d, l = [a, b, c, d] := by
  rcases l with - | ⟨a, l⟩
  · simp at h
  rcases l with - | ⟨b, l⟩
  · simp at h
  rcases l with - | ⟨c, l⟩
  · simp at h
  rcases l with - | ⟨d, l⟩
  · simp at h
  have hl : l = [] := by
    simp only [List.length_cons] at h
    exact List.eq_nil_of_length_eq_zero (by omega)
  exact ⟨a, b, c, d, by rw [hl]⟩

theorem get?_eq_getD_of_lt {l : List Nat} {i : Nat} (h : i < l.length) :
    l.get? i = some (l.getD i 0) := by
  rw [List.get?_eq_getElem?, List.getD_eq_getElem?_getD, List.getElem?_eq_getElem h]
  rfl

theorem decode_quartet_some {l : List Nat} (h : l.length = 4) :
    ∃ dec, decode_quartet l = some dec ∧ dec.length = 3 := by
  obtain ⟨a, b, c, d, rfl⟩ := list_length_four h
  exact ⟨_, rfl, rfl⟩

set_option maxRecDepth 40000 in
theorem convert_some {l : List Nat} (h : ∀ x ∈ l, x < 127) :
    ∃ cl, convert_encoded_bytes l = some cl ∧ cl.length = l.length ∧
      ∀ i, i < l.length →
        cl.getD i 0 = CHARS_BASE_64_ENCODING.getD (l.getD i 0) 0 := by
  induction l with
  | nil => exact ⟨[], rfl, rfl, by intro i hi; cases hi⟩
  | cons a t ih =>
    obtain ⟨cl, hc, hlen, hidx⟩ := ih (fun x hx => h x (List.mem_cons_of_mem a hx))
    have ha : a < 127 := h a (List.mem_cons_self a t)
    have hga : CHARS_BASE_64_ENCODING.get? a
        = some (CHARS_BASE_64_ENCODING.getD a 0) :=
      get?_eq_getD_of_lt (by rw [show CHARS_BASE_64_ENCODING.length = 127 from by decide]; exact ha)
    refine ⟨CHARS_BASE_64_ENCODING.getD a 0 :: cl, ?_, by simp [hlen], ?_⟩
    · unfold convert_encoded_bytes at hc ⊢
      rw [List.mapM_cons, hga]
      simp only [Option.bind_eq_bind, Option.some_bind]
      rw [hc]
      rfl
    · intro i hi
      cases i with
      | zero => rfl
      | succ i =>
        simp only [List.getD_cons_succ]
        exact hidx i (by simp only [List.length_cons] at hi; omega)

set_option maxRecDepth 40000 in
/-- Reverse values 61 arise exactly from the bytes `'9'` (57) and `'='`
(61), for in-range bytes. -/
theorem chars_getD_eq_61_iff :
    ∀ b, b < 127 → (CHARS_BASE_64_ENCODING.getD b 0 = 61 ↔ (b = 57 ∨ b = 61)) := by
  decide

set_option maxRecDepth 40000 in
theorem pad61 : CHARS_BASE_64_ENCODING.get? 61 = some 61 := by decide

theorem decode_incomplete_spec (a b c d : Nat) :
    (List.findIdx (fun r => r == 61) [a, b, c, d] ≤ 1 →
      decode_incomplete [a, b, c, d] = some (Except.error {})) ∧
    (2 ≤ List.findIdx (fun r => r == 61) [a, b, c, d] →
      ∃ dl, decode_incomplete [a, b, c, d] = some (Except.ok dl) ∧
        dl.length = List.findIdx (fun r => r == 61) [a, b, c, d] - 1) := by
  have hple : List.findIdx (fun r => r == 61) [a, b, c, d] ≤ 4 :=
    List.findIdx_le_length _
  constructor
  · intro h1
    have hf : List.findIdx (fun r => r == 61) [a, b, c, d] = 0 ∨
        List.findIdx (fun r => r == 61) [a, b, c, d] = 1 := by omega
    rcases hf with hf | hf
    · unfold decode_incomplete
      rw [pad61]
      simp only [Option.bind_eq_bind, Option.some_bind]
      rw [hf]
      rfl
    · unfold decode_incomplete
      rw [pad61]
      simp only [Option.bind_eq_bind, Option.some_bind]
      rw [hf]
      rfl
  · intro h2
    have hf : List.findIdx (fun r => r == 61) [a, b, c, d] = 2 ∨
        List.findIdx (fun r => r == 61) [a, b, c, d] = 3 ∨
        List.findIdx (fun r => r == 61) [a, b, c, d] = 4 := by omega
    rcases hf with hf | hf | hf
    · unfold decode_incomplete
      rw [pad61]
      simp only [Option.bind_eq_bind, Option.some_bind]
      rw [hf]
      exact ⟨_, rfl, rfl⟩
    · unfold decode_incomplete
      rw [pad61]
      simp only [Option.bind_eq_bind, Option.some_bind]
      rw [hf]
      exact ⟨_, rfl, rfl⟩
    · unfold decode_incomplete
      rw [pad61]
      simp only [Option.bind_eq_bind, Option.some_bind]
      rw [hf]
      exact ⟨_, rfl, rfl⟩

theorem decodeLoop_ok (bytes : List Nat) (n : Nat) (hlen : bytes.length = 4 * n)
    (h127 : ∀ x ∈ bytes, x < 127) :
    ∀ (j k : Nat) (res : List Nat) (p : Nat), k + j + 1 = n → p = 3 * k →
      3 * (n - 1) ≤ res.length →
      ∃ res', decodeLoop bytes (bytes.length - 4 - (4 * k + 1)) res p (4 * k + 1)
          = some (res', 3 * (n - 1)) ∧ res'.length = res.length := by
  intro j
  induction j with
  | zero =>
    intro k res p hk hp hres
    have hg : bytes.length - 4 - (4 * k + 1) = 0 := by omega
    rw [hg, decodeLoop_stop]
    have hp' : p = 3 * (n - 1) := by omega
    rw [hp']
    exact ⟨res, rfl, rfl⟩
  | succ j ih =>
    intro k res p hk hp hres
    have hkn : k + 1 < n := by omega
    have hg1 : bytes.length - 4 - (4 * k + 1) = (bytes.length - 4 - (4 * k + 2)) + 1 := by
      omega
    rw [hg1, decodeLoop_skip (by omega)]
    have hg2 : bytes.length - 4 - (4 * k + 2) = (bytes.length - 4 - (4 * k + 3)) + 1 := by
      omega
    rw [hg2, decodeLoop_skip (by omega)]
    have hg3 : bytes.length - 4 - (4 * k + 3) = (bytes.length - 4 - (4 * k + 4)) + 1 := by
      omega
    rw [hg3, decodeLoop_write (by omega)]
    have hidx : 4 * k + 1 + 1 + 1 - 3 = 4 * k := by omega
    rw [hidx]
    have hchunklen : ((bytes.drop (4 * k)).take 4).length = 4 := by
      rw [List.length_take, List.length_drop]
      omega
    obtain ⟨conv, hc, hclen, -⟩ := convert_some (l := (bytes.drop (4 * k)).take 4)
      (fun x hx => h127 x (List.mem_of_mem_drop (List.mem_of_mem_take hx)))
    rw [hc]
    simp only [Option.bind_eq_bind, Option.some_bind]
    obtain ⟨dec, hq, hdlen⟩ := decode_quartet_some (hclen.trans hchunklen)
    rw [hq]
    simp only [Option.some_bind]
    have hsw : p + dec.length ≤ res.length := by
      rw [hdlen, hp]
      omega
    rw [storeSlice_some hsw]
    simp only [Option.some_bind]
    rcases Nat.eq_zero_or_pos j with hj | hj
    · have hg4 : bytes.length - 4 - (4 * k + 1 + 1 + 1 + 1) = 0 := by omega
      rw [hg4, decodeLoop_stop]
      have hp3 : p + 3 = 3 * (n - 1) := by omega
      rw [hp3]
      exact ⟨writeAt res p dec, rfl, writeAt_length hsw⟩
    · have hg5 : bytes.length - 4 - (4 * k + 4) = (bytes.length - 4 - (4 * k + 5)) + 1 := by
        omega
      rw [hg5, decodeLoop_skip (by omega)]
      have hstep : 4 * k + 1 + 1 + 1 + 1 + 1 = 4 * (k + 1) + 1 := by omega
      rw [hstep]
      have hp3 : p + 3 = 3 * (k + 1) := by omega
      rw [hp3]
      obtain ⟨res'', h1, h2⟩ := ih (k + 1) (writeAt res p dec) (3 * (k + 1))
        (by omega) rfl (by rw [writeAt_length hsw]; omega)
      exact ⟨res'', h1, h2.trans (writeAt_length hsw)⟩

theorem getD_take_drop (l : List Nat) (m k i : Nat) (hi : i < k) (hmi : m + i < l.length) :
    ((l.drop m).take k).getD i 0 = l.getD (m + i) 0 := by
  have hlen : i < ((l.drop m).take k).length := by
    rw [List.length_take, List.length_drop]
    omega
  rw [List.getD_eq_getElem?_getD, List.getD_eq_getElem?_getD,
    List.getElem?_eq_getElem hlen, List.getElem?_eq_getElem hmi]
  simp only [Option.getD_some]
  rw [List.getElem_take, List.getElem_drop]

set_option maxRecDepth 40000 in
/-- C4 amended: for inputs of positive multiple-of-4 length whose bytes
are below 127 and whose `'='` bytes occur only in the final 4-byte
chunk, decoding fails with `PaddingError` exactly when the first byte of
the final chunk mapping to reverse value 61 — the padding byte `'='` or
the digit `'9'` — sits at position 0 or 1; otherwise the final chunk
contributes 3 bytes when no such byte is present (scan position 4), 2
bytes at position 3, and 1 byte at position 2. -/
theorem C4_padding_positions (bytes : List Nat) (n : Nat) (hlen : bytes.length = 4 * n)
    (hn : 1 ≤ n) (h127 : ∀ x ∈ bytes, x < 127)
    (hearly : ∀ j, j < bytes.length - 4 → bytes.getD j 0 ≠ 61) :
    ∃ conv, convert_encoded_bytes ((bytes.drop (bytes.length - 4)).take 4) = some conv ∧
      (conv.findIdx (fun r => r == 61) ≤ 1 →
        base64_decode_bytes bytes = some (Except.error {})) ∧
      (2 ≤ conv.findIdx (fun r => r == 61) →
        ∃ out d, base64_decode_bytes bytes = some (Except.ok out) ∧
          decode_incomplete conv = some (Except.ok d) ∧
          d.length = conv.findIdx (fun r => r == 61) - 1) := by
  have hlen4 : 4 ≤ bytes.length := by omega
  have hchunklen : ((bytes.drop (bytes.length - 4)).take 4).length = 4 := by
    rw [List.length_take, List.length_drop]
    omega
  obtain ⟨conv, hc, hclen, hidxc⟩ :=
    convert_some (l := (bytes.drop (bytes.length - 4)).take 4)
      (fun x hx => h127 x (List.mem_of_mem_drop (List.mem_of_mem_take hx)))
  obtain ⟨a, b, c, d, rfl⟩ := list_length_four (hclen.trans hchunklen)
  refine ⟨[a, b, c, d], hc, ?_⟩
  have hple : List.findIdx (fun r => r == 61) [a, b, c, d] ≤ 4 :=
    List.findIdx_le_length _
  set p := List.findIdx (fun r => r == 61) [a, b, c, d] with hpdef
  -- bytes below position 4*(n-1)+p are never 61
  have hno : ∀ j, j < 4 * (n - 1) + p → j < bytes.length → bytes.getD j 0 ≠ 61 := by
    intro j hj hjlen h61
    by_cases hj4 : j < bytes.length - 4
    · exact hearly j hj4 h61
    · have hi4 : j - (bytes.length - 4) < 4 := by omega
      have hip : j - (bytes.length - 4) < p := by omega
      have hchk : ((bytes.drop (bytes.length - 4)).take 4).getD (j - (bytes.length - 4)) 0
          = bytes.getD j 0 := by
        rw [getD_take_drop bytes (bytes.length - 4) 4 _ hi4 (by omega)]
        congr 1
        omega
      have hcv : ([a, b, c, d] : List Nat).getD (j - (bytes.length - 4)) 0 = 61 := by
        rw [hidxc _ (by rw [hchunklen]; exact hi4), hchk, h61]
        decide
      have hlt : j - (bytes.length - 4) < List.findIdx (fun r => r == 61) [a, b, c, d] := hip
      have hgetd : ([a, b, c, d] : List Nat).getD (j - (bytes.length - 4)) 0
          = ([a, b, c, d] : List Nat).get
              ⟨j - (bytes.length - 4), by simp only [List.length_cons, List.length_nil]; omega⟩ := by
        rw [List.getD_eq_getElem?_getD,
          List.getElem?_eq_getElem (by simp only [List.length_cons, List.length_nil]; omega)]
        rfl
      rw [hgetd] at hcv
      have hne := List.not_of_lt_findIdx hlt
      rw [List.get_eq_getElem] at hcv
      simp [hcv] at hne
  -- hence the first raw '=' is at index at least 4*(n-1)+p
  have hreal : 4 * (n - 1) + p ≤ bytes.findIdx (fun r => r == 61) := by
    by_cases hcase : 4 * (n - 1) + p < bytes.length
    · apply List.le_findIdx_of_not hcase
      intro j hj
      have := hno j hj (by omega)
      simp only [beq_eq_false_iff_ne, ne_eq]
      intro hgj
      apply this
      rw [List.getD_eq_getElem?_getD, List.getElem?_eq_getElem (by omega)]
      exact hgj
    · have hfull : bytes.findIdx (fun r => r == 61) = bytes.length := by
        apply List.findIdx_eq_length_of_false
        intro x hx
        obtain ⟨j, hjl, rfl⟩ := List.mem_iff_getElem.mp hx
        have := hno j (by omega) hjl
        simp only [beq_eq_false_iff_ne, ne_eq]
        intro hgj
        apply this
        rw [List.getD_eq_getElem?_getD, List.getElem?_eq_getElem hjl]
        exact hgj
      omega
  have htgt : decode_calc_byte_size bytes = 3 * (bytes.findIdx (fun r => r == 61)) / 4 :=
    rfl
  have htb : 3 * (n - 1) ≤ decode_calc_byte_size bytes := by
    rw [htgt]
    omega
  -- the loop over the full chunks always succeeds
  obtain ⟨res1, hloop, hres1len⟩ := decodeLoop_ok bytes n hlen h127 (n - 1) 0
    (List.replicate (decode_calc_byte_size bytes) 0) 0 (by omega) rfl
    (by rw [List.length_replicate]; exact htb)
  simp only [Nat.mul_zero, Nat.zero_add] at hloop
  have hres1 : res1.length = decode_calc_byte_size bytes := by
    rw [hres1len, List.length_replicate]
  constructor
  · intro hp1
    have hinc := (decode_incomplete_spec a b c d).1 hp1
    unfold base64_decode_bytes
    simp only []
    rw [if_neg (by omega)]
    split
    case _ heq =>
      rw [hloop] at heq
      cases heq
    case _ res _pos heq =>
      rw [hloop] at heq
      injection heq with hp'
      injection hp' with h1 h2
      subst h1
      rw [hc]
      simp only [Option.bind_eq_bind, Option.some_bind]
      rw [hinc]
      rfl
  · intro hp2
    obtain ⟨dl, hinc, hdl⟩ := (decode_incomplete_spec a b c d).2 hp2
    have hdlt : dl.length ≤ decode_calc_byte_size bytes := by
      rw [hdl, htgt]
      omega
    refine ⟨writeAt res1 (decode_calc_byte_size bytes - dl.length) dl, dl, ?_, hinc, hdl⟩
    unfold base64_decode_bytes
    simp only []
    rw [if_neg (by omega)]
    split
    case _ heq =>
      rw [hloop] at heq
      cases heq
    case _ res _pos heq =>
      rw [hloop] at heq
      injection heq with hp'
      injection hp' with h1 h2
      subst h1
      rw [hc]
      simp only [Option.bind_eq_bind, Option.some_bind]
      rw [hinc]
      simp only [Option.some_bind]
      rw [if_pos hdlt, storeSlice_some (by omega)]
      rfl

/-- C4 counterexample: decoding `"9aaa"`, which contains no padding
character at all, fails with `PaddingError`, because the digit `'9'`
maps to the same reverse value 61 as the padding byte; so
`PaddingError` does not occur exactly when the first padding character
sits at position 0 or 1. -/
theorem C4_counterexample :
    base64_decode_bytes [57, 97, 97, 97] = some (Except.error {}) ∧
    (∀ x ∈ ([57, 97, 97, 97] : List Nat), x ≠ PADDING_CHAR) ∧
    ([57, 97, 97, 97] : List Nat).length = 4 := by decide

/-- C4 witness: `"a==="` (first 61-value at position 1) fails with
`PaddingError`; `"TQ=="` (first 61-value at position 2) decodes, its
final chunk contributing 1 byte. -/
theorem C4_witness :
    base64_decode_bytes [97, 61, 61, 61] = some (Except.error {}) ∧
    (∃ out d, base64_decode_bytes [84, 81, 61, 61] = some (Except.ok out) ∧
      decode_incomplete [19, 16, 61, 61] = some (Except.ok d) ∧ d.length = 1) := by
  constructor
  · obtain ⟨conv, hc, herr, -⟩ := C4_padding_positions [97, 61, 61, 61] 1 (by decide)
      (by decide) (by decide) (by intro j hj; simp at hj)
    have hc' : convert_encoded_bytes
        ((([97, 61, 61, 61] : List Nat).drop (([97, 61, 61, 61] : List Nat).length - 4)).take 4)
        = some [26, 61, 61, 61] := by decide
    have hc2 := hc'.symm.trans hc
    injection hc2 with hc3
    subst hc3
    exact herr (by decide)
  · obtain ⟨conv, hc, -, hok⟩ := C4_padding_positions [84, 81, 61, 61] 1 (by decide)
      (by decide) (by decide) (by intro j hj; simp at hj)
    have hc' : convert_encoded_bytes
        ((([84, 81, 61, 61] : List Nat).drop (([84, 81, 61, 61] : List Nat).length - 4)).take 4)
        = some [19, 16, 61, 61] := by decide
    have hc2 := hc'.symm.trans hc
    injection hc2 with hc3
    subst hc3
    obtain ⟨out, d, h1, h2, h3⟩ := hok (by decide)
    exact ⟨out, d, h1, h2, by rw [h3]; decide⟩
